import Mathlib

/-!
Verification of the `lcs` crate (`src/lib.rs`): LCS table construction
(`Lcs::new`), the length query (`Lcs::length`), and diff backtracking
(`Lcs::backtrack`), modelled shallowly over `List`.

Sequences are `List α` with decidable equality (the Rust code requires
`T: Eq`).  The DP matrix `Box<[Box<[usize]>]>` is modelled as
`List (List Nat)`.  Rust's panicking operations (index out of bounds,
`usize` subtraction underflow) are modelled by `Option`: a `none` result
of `Lcs.backtrack` corresponds to a panic of the Rust code.
-/

namespace lcs

/-- The preferred ordering in cases where two paths are equally long
(`enum Ordering` in `src/lib.rs`). -/
inductive Ordering where
  | DeleteFirst
  | InsertFirst
deriving DecidableEq

/-- A diff component (`enum Diff` in `src/lib.rs`).  The Rust variants carry
references `&'a T` into the original slices; the model carries the element
values themselves. -/
inductive Diff (α : Type) where
  | Common (a : α)
  | Delete (a : α)
  | Insert (a : α)
deriving DecidableEq

/-- Read `matrix[y][x]`.  Inside `Lcs::new` every read is in bounds; reads
outside the allocated table return the default `0`. -/
def get2 (matrix : List (List Nat)) (y x : Nat) : Nat :=
  ((matrix[y]?.getD [])[x]?).getD 0

/-- Write `matrix[y][x] = v`.  Inside `Lcs::new` every write is in bounds;
writes outside the allocated table are dropped. -/
def set2 (matrix : List (List Nat)) (y x v : Nat) : List (List Nat) :=
  matrix.set y ((matrix[y]?.getD []).set x v)

/-- The body of the inner `for x in 1..=source.len()` loop of `Lcs::new`:
`if source[x-1] == dest[y-1] { matrix[y][x] = matrix[y-1][x-1] + 1 } else
{ matrix[y][x] = cmp::max(matrix[y][x-1], matrix[y-1][x]) }`. -/
def fillCell [DecidableEq α] (source dest : List α) (y : Nat)
    (matrix : List (List Nat)) (x : Nat) : List (List Nat) :=
  if source[x - 1]? = dest[y - 1]? then
    set2 matrix y x (get2 matrix (y - 1) (x - 1) + 1)
  else
    set2 matrix y x (max (get2 matrix y (x - 1)) (get2 matrix (y - 1) x))

/-- One iteration of the outer `for y in 1..=dest.len()` loop of `Lcs::new`. -/
def fillRow [DecidableEq α] (source dest : List α)
    (matrix : List (List Nat)) (y : Nat) : List (List Nat) :=
  (List.range' 1 source.length).foldl (fillCell source dest y) matrix

/-- The DP table computed by `Lcs::new`, starting from
`vec![vec![0; 1 + source.len()]; 1 + dest.len()]`. -/
def buildMatrix [DecidableEq α] (source dest : List α) : List (List Nat) :=
  (List.range' 1 dest.length).foldl (fillRow source dest)
    (List.replicate (1 + dest.length) (List.replicate (1 + source.length) 0))

/-- The struct `Lcs<'a, T>`: the two borrowed slices plus the precomputed
matrix. -/
structure Lcs (α : Type) where
  source : List α
  dest : List α
  matrix : List (List Nat)

/-- `Lcs::new`: precalculate the matrix and return an instance. -/
def Lcs.new [DecidableEq α] (source dest : List α) : Lcs α :=
  Lcs.mk source dest (buildMatrix source dest)

/-- `Lcs::length`: `self.matrix[self.dest.len()][self.source.len()]` (always
in bounds for a table built by `Lcs::new`). -/
def Lcs.length (l : Lcs α) : Nat :=
  get2 l.matrix l.dest.length l.source.length

/-- Read `self.matrix[y][x]` as the backtracking loop does, where an
out-of-bounds row or column index is a panic (`none`). -/
def matRead (matrix : List (List Nat)) (y x : Nat) : Option Nat :=
  (matrix[y]?).bind fun row => row[x]?

/-- The insert-or-delete arm of the backtracking loop body, i.e. everything
after the `Common` test failed:

`else if x == 0 || self.matrix[y-1][x] > self.matrix[y][x-1]
     || (ordering == Ordering::DeleteFirst && self.matrix[y-1][x] == self.matrix[y][x-1])
 { y -= 1; track.push(Diff::Insert(&self.dest[y])) }
 else { x -= 1; track.push(Diff::Delete(&self.source[x])) }`

When `x ≠ 0` the short-circuiting `||` evaluates `self.matrix[y-1][x]`; if
`y == 0` the subtraction `y - 1` underflows `usize`, a panic, modelled by
`none`.  The result is the pushed diff together with the updated `(x, y)`. -/
def stepInsDel [DecidableEq α] (source dest : List α)
    (matrix : List (List Nat)) (ordering : Ordering) (x y : Nat) :
    Option (Diff α × Nat × Nat) :=
  if x = 0 then
    match dest[y - 1]? with
    | some b => some (Diff.Insert b, x, y - 1)
    | none => none
  else if y = 0 then
    none
  else
    match matRead matrix (y - 1) x, matRead matrix y (x - 1) with
    | some up, some left =>
      if up > left ∨ (ordering = Ordering.DeleteFirst ∧ up = left) then
        match dest[y - 1]? with
        | some b => some (Diff.Insert b, x, y - 1)
        | none => none
      else
        match source[x - 1]? with
        | some a => some (Diff.Delete a, x - 1, y)
        | none => none
    | _, _ => none

/-- One iteration of the `while y > 0 || x > 0` loop body of
`Lcs::backtrack`.  The first arm is
`if x > 0 && y > 0 && self.source[x-1] == self.dest[y-1]
 { x -= 1; y -= 1; track.push(Diff::Common(&self.source[x])) }`;
an out-of-bounds element access is a panic (`none`). -/
def diffStep [DecidableEq α] (source dest : List α)
    (matrix : List (List Nat)) (ordering : Ordering) (x y : Nat) :
    Option (Diff α × Nat × Nat) :=
  if 0 < x ∧ 0 < y then
    match source[x - 1]?, dest[y - 1]? with
    | some a, some b =>
      if a = b then some (Diff.Common a, x - 1, y - 1)
      else stepInsDel source dest matrix ordering x y
    | _, _ => none
  else
    stepInsDel source dest matrix ordering x y

/-- The `while y > 0 || x > 0` loop of `Lcs::backtrack`, with an explicit
iteration budget.  Every successful iteration strictly decreases `x + y`,
so a budget of the initial `x + y` is never exhausted; the final
`track.reverse()` is applied on exit. -/
def backtrackGo [DecidableEq α] (source dest : List α)
    (matrix : List (List Nat)) (ordering : Ordering) :
    Nat → Nat → Nat → List (Diff α) → Option (List (Diff α))
  | 0, x, y, track =>
    if 0 < y ∨ 0 < x then none else some track.reverse
  | fuel + 1, x, y, track =>
    if 0 < y ∨ 0 < x then
      match diffStep source dest matrix ordering x y with
      | none => none
      | some (op, x', y') =>
          backtrackGo source dest matrix ordering fuel x' y' (track ++ [op])
    else
      some track.reverse

/-- `Lcs::backtrack`: walk from `(x, y) = (source.len(), dest.len())` back to
`(0, 0)`; `none` models a panic of the Rust code. -/
def Lcs.backtrack [DecidableEq α] (l : Lcs α) (ordering : Ordering) :
    Option (List (Diff α)) :=
  backtrackGo l.source l.dest l.matrix ordering
    (l.source.length + l.dest.length) l.source.length l.dest.length []

/-- The elements carried by `Common` and `Delete` operations of a diff
script, in emitted order. -/
def diffSource : List (Diff α) → List α
  | [] => []
  | Diff.Common a :: rest => a :: diffSource rest
  | Diff.Delete a :: rest => a :: diffSource rest
  | Diff.Insert _ :: rest => diffSource rest

/-- The elements carried by `Common` and `Insert` operations of a diff
script, in emitted order. -/
def diffDest : List (Diff α) → List α
  | [] => []
  | Diff.Common a :: rest => a :: diffDest rest
  | Diff.Insert a :: rest => a :: diffDest rest
  | Diff.Delete _ :: rest => diffDest rest

/-- Length of a longest common subsequence of two lists, the mathematical
reference function for the crate. -/
def lcsLen [DecidableEq α] : List α → List α → Nat
  | [], _ => 0
  | _ :: _, [] => 0
  | a :: as, b :: bs =>
    if a = b then lcsLen as bs + 1
    else max (lcsLen (a :: as) bs) (lcsLen as (b :: bs))
termination_by l₁ l₂ => l₁.length + l₂.length

/-- `k` is the length of a longest common subsequence of `A` and `B`. -/
def IsMaxLcsLen (A B : List α) (k : Nat) : Prop :=
  (∃ C : List α, C.Sublist A ∧ C.Sublist B ∧ C.length = k) ∧
    ∀ C : List α, C.Sublist A → C.Sublist B → C.length ≤ k

/-- The intended value of cell `matrix[y][x]`: the LCS length of the
prefixes `source[0..x)` and `dest[0..y)` (computed on the reversed prefixes,
which have the same common subsequences up to reversal). -/
def entry [DecidableEq α] (source dest : List α) (y x : Nat) : Nat :=
  lcsLen ((source.take x).reverse) ((dest.take y).reverse)

/-- The table has the right number of rows and columns. -/
def MatShape (source dest : List α) (mat : List (List Nat)) : Prop :=
  mat.length = dest.length + 1 ∧ ∀ row ∈ mat, row.length = source.length + 1

/-- Rows `0..k` of the table hold their final `entry` values. -/
def RowsUpTo [DecidableEq α] (source dest : List α) (mat : List (List Nat))
    (k : Nat) : Prop :=
  ∀ y x, y ≤ k → x ≤ source.length → get2 mat y x = entry source dest y x

/-- Rows strictly above `k` are still all zero. -/
def RowsZeroAbove (mat : List (List Nat)) (k : Nat) : Prop :=
  ∀ y x, k < y → get2 mat y x = 0

/-- Invariant of the inner loop while filling row `y`: columns `0..c` of row
`y` are final, the rest of row `y` and all later rows are zero. -/
def InnerInv [DecidableEq α] (source dest : List α) (mat : List (List Nat))
    (y c : Nat) : Prop :=
  MatShape source dest mat ∧ RowsUpTo source dest mat (y - 1) ∧
    (∀ x, x ≤ c → get2 mat y x = entry source dest y x) ∧
    (∀ x, c < x → get2 mat y x = 0) ∧
    RowsZeroAbove mat y

/-- Invariant of the outer loop: rows `0..k` are final, the rest zero. -/
def OuterInv [DecidableEq α] (source dest : List α) (mat : List (List Nat))
    (k : Nat) : Prop :=
  MatShape source dest mat ∧ RowsUpTo source dest mat k ∧ RowsZeroAbove mat k

/-- The insert arm of the loop body was taken after comparing matrix cells
(reachable only when the `Common` test has already failed on unequal
elements). -/
def InsTaken [DecidableEq α] (source dest : List α) (matrix : List (List Nat))
    (ordering : Ordering) (x y : Nat) : Prop :=
  ∃ a b up left, source[x - 1]? = some a ∧ dest[y - 1]? = some b ∧ a ≠ b ∧
    matRead matrix (y - 1) x = some up ∧ matRead matrix y (x - 1) = some left ∧
    (up > left ∨ (ordering = Ordering.DeleteFirst ∧ up = left))

/-- The delete arm of the loop body was taken after comparing matrix cells. -/
def DelTaken [DecidableEq α] (source dest : List α) (matrix : List (List Nat))
    (ordering : Ordering) (x y : Nat) : Prop :=
  ∃ a b up left, source[x - 1]? = some a ∧ dest[y - 1]? = some b ∧ a ≠ b ∧
    matRead matrix (y - 1) x = some up ∧ matRead matrix y (x - 1) = some left ∧
    ¬(up > left ∨ (ordering = Ordering.DeleteFirst ∧ up = left))

/-! Basic facts about `lcsLen`. -/

lemma lcsLen_nil_left [DecidableEq α] (B : List α) : lcsLen ([] : List α) B = 0 := by
  simp [lcsLen]

lemma lcsLen_nil_right [DecidableEq α] (A : List α) : lcsLen A ([] : List α) = 0 := by
  cases A <;> simp [lcsLen]

lemma lcsLen_cons_cons [DecidableEq α] (a b : α) (as bs : List α) :
    lcsLen (a :: as) (b :: bs) =
      if a = b then lcsLen as bs + 1
      else max (lcsLen (a :: as) bs) (lcsLen as (b :: bs)) := by
  rw [lcsLen]

lemma lcsLen_self [DecidableEq α] (A : List α) : lcsLen A A = A.length := by
  induction A with
  | nil => simp [lcsLen]
  | cons a as ih => simp [lcsLen_cons_cons, ih]

/-- `lcsLen A B` really is the length of a longest common subsequence. -/
theorem lcsLen_isMax [DecidableEq α] (A B : List α) :
    IsMaxLcsLen A B (lcsLen A B) := by
  generalize hk : A.length + B.length = k
  induction k using Nat.strong_induction_on generalizing A B with
  | _ k ih =>
    match A, B with
    | [], B =>
      refine ⟨⟨[], List.nil_sublist _, List.nil_sublist _, by simp [lcsLen_nil_left]⟩, ?_⟩
      intro C hCA _
      obtain rfl := List.sublist_nil.mp hCA
      simp
    | a :: as, [] =>
      refine ⟨⟨[], List.nil_sublist _, List.nil_sublist _, by simp [lcsLen_nil_right]⟩, ?_⟩
      intro C _ hCB
      obtain rfl := List.sublist_nil.mp hCB
      simp
    | a :: as, b :: bs =>
      by_cases hab : a = b
      · subst hab
        have ihm := ih (as.length + bs.length)
          (by simp only [List.length_cons] at hk; omega) as bs rfl
        rw [lcsLen_cons_cons, if_pos rfl]
        constructor
        · obtain ⟨C, h1, h2, h3⟩ := ihm.1
          exact ⟨a :: C, List.cons_sublist_cons.mpr h1, List.cons_sublist_cons.mpr h2,
            by simp [h3]⟩
        · intro C hCA hCB
          rcases List.sublist_cons_iff.mp hCA with hA | ⟨C', rfl, hC'⟩
          · rcases List.sublist_cons_iff.mp hCB with hB | ⟨C'', rfl, hC''⟩
            · have := ihm.2 C hA hB
              omega
            · have h1 : C''.Sublist as := List.sublist_of_cons_sublist hA
              have := ihm.2 C'' h1 hC''
              simp only [List.length_cons]
              omega
          · have h2 : C'.Sublist bs := by
              rcases List.sublist_cons_iff.mp hCB with hB | ⟨C'', hEq, hC''⟩
              · exact List.sublist_of_cons_sublist hB
              · obtain rfl : C' = C'' := by injection hEq
                exact hC''
            have := ihm.2 C' hC' h2
            simp only [List.length_cons]
            omega
      · rw [lcsLen_cons_cons]
        simp only [if_neg hab]
        have ih1 := ih ((a :: as).length + bs.length)
          (by simp only [List.length_cons] at hk ⊢; omega) (a :: as) bs rfl
        have ih2 := ih (as.length + (b :: bs).length)
          (by simp only [List.length_cons] at hk ⊢; omega) as (b :: bs) rfl
        constructor
        · by_cases hle : lcsLen (a :: as) bs ≤ lcsLen as (b :: bs)
          · rw [Nat.max_eq_right hle]
            obtain ⟨C, h1, h2, h3⟩ := ih2.1
            exact ⟨C, h1.cons a, h2, h3⟩
          · rw [Nat.max_eq_left (by omega)]
            obtain ⟨C, h1, h2, h3⟩ := ih1.1
            exact ⟨C, h1, h2.cons b, h3⟩
        · intro C hCA hCB
          rcases List.sublist_cons_iff.mp hCB with hB | ⟨C', rfl, hC'⟩
          · have := ih1.2 C hCA hB
            omega
          · rcases List.sublist_cons_iff.mp hCA with hA | ⟨C'', hEq, _⟩
            · have := ih2.2 _ hA hCB
              omega
            · have hba : b = a := by injection hEq
              exact absurd hba.symm hab

lemma isMaxLcsLen_unique {A B : List α} {k k' : Nat}
    (h1 : IsMaxLcsLen A B k) (h2 : IsMaxLcsLen A B k') : k = k' := by
  obtain ⟨⟨C, hCA, hCB, hC⟩, hub⟩ := h1
  obtain ⟨⟨D, hDA, hDB, hD⟩, hub2⟩ := h2
  have := hub D hDA hDB
  have := hub2 C hCA hCB
  omega

lemma isMaxLcsLen_comm {A B : List α} {k : Nat} (h : IsMaxLcsLen A B k) :
    IsMaxLcsLen B A k := by
  obtain ⟨⟨C, hCA, hCB, hC⟩, hub⟩ := h
  exact ⟨⟨C, hCB, hCA, hC⟩, fun D hDB hDA => hub D hDA hDB⟩

lemma isMaxLcsLen_reverse {A B : List α} {k : Nat} (h : IsMaxLcsLen A B k) :
    IsMaxLcsLen A.reverse B.reverse k := by
  obtain ⟨⟨C, hCA, hCB, hC⟩, hub⟩ := h
  refine ⟨⟨C.reverse, hCA.reverse, hCB.reverse, by simp [hC]⟩, ?_⟩
  intro D hDA hDB
  have h1 : D.reverse.Sublist A := by simpa using hDA.reverse
  have h2 : D.reverse.Sublist B := by simpa using hDB.reverse
  have := hub D.reverse h1 h2
  simpa using this

lemma lcsLen_comm [DecidableEq α] (A B : List α) : lcsLen A B = lcsLen B A :=
  isMaxLcsLen_unique (lcsLen_isMax A B) (isMaxLcsLen_comm (lcsLen_isMax B A))

lemma lcsLen_le_length_left [DecidableEq α] (A B : List α) :
    lcsLen A B ≤ A.length := by
  obtain ⟨⟨C, hCA, _, hC⟩, _⟩ := lcsLen_isMax A B
  have := hCA.length_le
  omega

lemma lcsLen_le_length_right [DecidableEq α] (A B : List α) :
    lcsLen A B ≤ B.length := by
  obtain ⟨⟨C, _, hCB, hC⟩, _⟩ := lcsLen_isMax A B
  have := hCB.length_le
  omega

lemma lcsLen_mono_left [DecidableEq α] {A A' : List α} (B : List α)
    (h : A.Sublist A') : lcsLen A B ≤ lcsLen A' B := by
  obtain ⟨⟨C, hCA, hCB, hC⟩, _⟩ := lcsLen_isMax A B
  have := (lcsLen_isMax A' B).2 C (hCA.trans h) hCB
  omega

lemma le_lcsLen_cons_left [DecidableEq α] (a : α) (A B : List α) :
    lcsLen A B ≤ lcsLen (a :: A) B :=
  lcsLen_mono_left B (List.sublist_cons_self a A)

lemma lcsLen_cons_left_le [DecidableEq α] (a : α) (A B : List α) :
    lcsLen (a :: A) B ≤ lcsLen A B + 1 := by
  obtain ⟨⟨C, hCA, hCB, hC⟩, _⟩ := lcsLen_isMax (a :: A) B
  rcases List.sublist_cons_iff.mp hCA with hA | ⟨C', rfl, hC'⟩
  · have := (lcsLen_isMax A B).2 C hA hCB
    omega
  · have := (lcsLen_isMax A B).2 C' hC' (List.sublist_of_cons_sublist hCB)
    simp only [List.length_cons] at hC
    omega

lemma le_lcsLen_cons_right [DecidableEq α] (b : α) (A B : List α) :
    lcsLen A B ≤ lcsLen A (b :: B) := by
  rw [lcsLen_comm A B, lcsLen_comm A (b :: B)]
  exact le_lcsLen_cons_left b B A

lemma lcsLen_cons_right_le [DecidableEq α] (b : α) (A B : List α) :
    lcsLen A (b :: B) ≤ lcsLen A B + 1 := by
  rw [lcsLen_comm A B, lcsLen_comm A (b :: B)]
  exact lcsLen_cons_left_le b B A

/-! Facts about `entry`, the intended value of a matrix cell. -/

lemma reverse_take_succ {l : List α} {n : Nat} {a : α} (h : l[n]? = some a) :
    (l.take (n + 1)).reverse = a :: (l.take n).reverse := by
  rw [List.take_succ, h]
  simp

lemma entry_x_zero [DecidableEq α] (source dest : List α) (y : Nat) :
    entry source dest y 0 = 0 := by
  simp [entry, lcsLen_nil_left]

lemma entry_y_zero [DecidableEq α] (source dest : List α) (x : Nat) :
    entry source dest 0 x = 0 := by
  simp [entry, lcsLen_nil_right]

/-- The defining recurrence of the DP table, stated on `entry`; the `max`
operands are in the order of the Rust source,
`cmp::max(matrix[y][x-1], matrix[y-1][x])`. -/
lemma entry_succ_succ [DecidableEq α] {source dest : List α} {x y : Nat} {a b : α}
    (hx : source[x]? = some a) (hy : dest[y]? = some b) :
    entry source dest (y + 1) (x + 1) =
      if a = b then entry source dest y x + 1
      else max (entry source dest (y + 1) x) (entry source dest y (x + 1)) := by
  simp only [entry]
  rw [reverse_take_succ hx, reverse_take_succ hy, lcsLen_cons_cons]
  by_cases hab : a = b
  · rw [if_pos hab, if_pos hab]
  · rw [if_neg hab, if_neg hab]
    exact Nat.max_comm _ _

/-! The imperative construction of the matrix computes `entry`. -/

lemma length_set2 (mat : List (List Nat)) (y x v : Nat) :
    (set2 mat y x v).length = mat.length := by
  simp [set2]

lemma getD_row {mat : List (List Nat)} {y : Nat} (hy : y < mat.length) :
    mat[y]?.getD [] = mat[y] := by
  rw [List.getElem?_eq_getElem hy]
  rfl

lemma set2_shape {mat : List (List Nat)} {w y : Nat}
    (h : ∀ row ∈ mat, row.length = w) (hy : y < mat.length) (x v : Nat) :
    ∀ row ∈ set2 mat y x v, row.length = w := by
  intro row hrow
  rcases List.mem_or_eq_of_mem_set hrow with h1 | rfl
  · exact h _ h1
  · rw [List.length_set, getD_row hy]
    exact h _ (List.getElem_mem hy)

lemma get2_set2_same {mat : List (List Nat)} {y x : Nat}
    (hy : y < mat.length) (hx : x < (mat[y]?.getD []).length) (v : Nat) :
    get2 (set2 mat y x v) y x = v := by
  unfold get2 set2
  rw [List.getElem?_set_self (by simpa using hy)]
  simp only [Option.getD_some]
  rw [List.getElem?_set_self hx]
  rfl

lemma get2_set2_ne {y x y' x' : Nat} (mat : List (List Nat)) (v : Nat)
    (h : y' ≠ y ∨ x' ≠ x) :
    get2 (set2 mat y x v) y' x' = get2 mat y' x' := by
  rcases h with h | h
  · unfold get2 set2
    rw [List.getElem?_set_ne (fun hc => h hc.symm)]
  · unfold get2 set2
    by_cases hy : y' = y
    · subst hy
      by_cases hlt : y' < mat.length
      · rw [List.getElem?_set_self (by simpa using hlt)]
        simp only [Option.getD_some]
        rw [List.getElem?_set_ne (fun hc => h hc.symm)]
      · have hnone : mat[y']? = none := by
          rw [List.getElem?_eq_none_iff]
          omega
        have hnone2 : (mat.set y' ((mat[y']?.getD []).set x v))[y']? = none := by
          rw [List.getElem?_eq_none_iff, List.length_set]
          omega
        rw [hnone2, hnone]
    · rw [List.getElem?_set_ne (fun hc => hy hc.symm)]

lemma get2_replicate_zero (r c y x : Nat) :
    get2 (List.replicate r (List.replicate c 0)) y x = 0 := by
  unfold get2
  simp only [List.getElem?_replicate]
  by_cases h : y < r
  · simp only [if_pos h, Option.getD_some, List.getElem?_replicate]
    by_cases h2 : x < c <;> simp [h2]
  · simp [if_neg h]

lemma fillCell_inv [DecidableEq α] {source dest : List α}
    {mat : List (List Nat)} {y c : Nat}
    (hy1 : 1 ≤ y) (hyn : y ≤ dest.length) (hx : c + 1 ≤ source.length)
    (h : InnerInv source dest mat y c) :
    InnerInv source dest (fillCell source dest y mat (c + 1)) y (c + 1) := by
  obtain ⟨⟨hlen, hrows⟩, hdone, hrow, hzero, habove⟩ := h
  have hylt : y < mat.length := by omega
  have hrowlen : (mat[y]?.getD []).length = source.length + 1 := by
    rw [getD_row hylt]
    exact hrows _ (List.getElem_mem hylt)
  have hxlt : c + 1 < (mat[y]?.getD []).length := by omega
  obtain ⟨a, ha⟩ : ∃ a, source[c]? = some a := by
    rw [List.getElem?_eq_getElem (show c < source.length by omega)]
    exact ⟨_, rfl⟩
  obtain ⟨y', rfl⟩ : ∃ y', y = y' + 1 := ⟨y - 1, by omega⟩
  obtain ⟨b, hb⟩ : ∃ b, dest[y']? = some b := by
    rw [List.getElem?_eq_getElem (show y' < dest.length by omega)]
    exact ⟨_, rfl⟩
  have hval : fillCell source dest (y' + 1) mat (c + 1) =
      set2 mat (y' + 1) (c + 1) (entry source dest (y' + 1) (c + 1)) := by
    unfold fillCell
    simp only [Nat.add_sub_cancel, ha, hb]
    have hrec := entry_succ_succ ha hb
    have h1 : get2 mat y' c = entry source dest y' c :=
      hdone y' c (by omega) (by omega)
    have h2 : get2 mat (y' + 1) c = entry source dest (y' + 1) c :=
      hrow c (by omega)
    have h3 : get2 mat y' (c + 1) = entry source dest y' (c + 1) :=
      hdone y' (c + 1) (by omega) (by omega)
    by_cases hab : a = b
    · rw [if_pos (show some a = some b by rw [hab]), h1, hrec, if_pos hab]
    · rw [if_neg (show ¬some a = some b by simpa using hab), h2, h3, hrec,
        if_neg hab]
  rw [hval]
  refine ⟨⟨by rw [length_set2, hlen], set2_shape hrows hylt _ _⟩, ?_, ?_, ?_, ?_⟩
  · intro yy xx hyy hxx
    rw [get2_set2_ne _ _ (Or.inl (by omega))]
    exact hdone yy xx hyy hxx
  · intro xx hxx
    by_cases hxc : xx = c + 1
    · subst hxc
      exact get2_set2_same hylt hxlt _
    · rw [get2_set2_ne _ _ (Or.inr hxc)]
      exact hrow xx (by omega)
  · intro xx hxx
    rw [get2_set2_ne _ _ (Or.inr (by omega))]
    exact hzero xx (by omega)
  · intro yy xx hyy
    rw [get2_set2_ne _ _ (Or.inl (by omega))]
    exact habove yy xx hyy

lemma fillRow_aux [DecidableEq α] {source dest : List α} {y : Nat}
    (hy1 : 1 ≤ y) (hyn : y ≤ dest.length) :
    ∀ (k c : Nat) (mat : List (List Nat)), c + k ≤ source.length →
      InnerInv source dest mat y c →
      InnerInv source dest
        ((List.range' (c + 1) k).foldl (fillCell source dest y) mat) y (c + k) := by
  intro k
  induction k with
  | zero => intro c mat _ h; simpa using h
  | succ k ih =>
    intro c mat hck h
    rw [List.range'_succ]
    simp only [List.foldl_cons]
    have h1 := fillCell_inv hy1 hyn (by omega) h
    have h2 := ih (c + 1) _ (by omega) h1
    rw [show c + (k + 1) = c + 1 + k by omega]
    exact h2

lemma fillRow_inv [DecidableEq α] {source dest : List α}
    {mat : List (List Nat)} {y : Nat}
    (hy1 : 1 ≤ y) (hyn : y ≤ dest.length)
    (h : OuterInv source dest mat (y - 1)) :
    OuterInv source dest (fillRow source dest mat y) y := by
  obtain ⟨hshape, hdone, habove⟩ := h
  have hInner : InnerInv source dest mat y 0 := by
    refine ⟨hshape, hdone, ?_, ?_, ?_⟩
    · intro x hx
      interval_cases x
      rw [entry_x_zero]
      exact habove y 0 (by omega)
    · intro x _
      exact habove y x (by omega)
    · intro yy xx hyy
      exact habove yy xx (by omega)
  have h2 := fillRow_aux hy1 hyn source.length 0 mat (by omega) hInner
  simp only [Nat.zero_add] at h2
  obtain ⟨hshape2, hdone2, hrow2, _, habove2⟩ := h2
  refine ⟨hshape2, ?_, habove2⟩
  intro yy xx hyy hxx
  by_cases hyx : yy = y
  · subst hyx
    exact hrow2 xx hxx
  · exact hdone2 yy xx (by omega) hxx

lemma buildMatrix_aux [DecidableEq α] {source dest : List α} :
    ∀ (k c : Nat) (mat : List (List Nat)), c + k ≤ dest.length →
      OuterInv source dest mat c →
      OuterInv source dest
        ((List.range' (c + 1) k).foldl (fillRow source dest) mat) (c + k) := by
  intro k
  induction k with
  | zero => intro c mat _ h; simpa using h
  | succ k ih =>
    intro c mat hck h
    rw [List.range'_succ]
    simp only [List.foldl_cons]
    have h1 : OuterInv source dest (fillRow source dest mat (c + 1)) (c + 1) := by
      refine fillRow_inv (by omega) (by omega) ?_
      simpa using h
    have h2 := ih (c + 1) _ (by omega) h1
    rw [show c + (k + 1) = c + 1 + k by omega]
    exact h2

/-- The matrix built by `Lcs::new` is correct: it has the right shape, and
every cell in range holds the LCS length of the corresponding prefixes. -/
theorem buildMatrix_inv [DecidableEq α] (source dest : List α) :
    OuterInv source dest (buildMatrix source dest) dest.length := by
  have hInit : OuterInv source dest
      (List.replicate (1 + dest.length) (List.replicate (1 + source.length) 0)) 0 := by
    refine ⟨⟨by simp [Nat.add_comm], ?_⟩, ?_, ?_⟩
    · intro row hrow
      rw [List.eq_of_mem_replicate hrow]
      simp [Nat.add_comm]
    · intro y x hy _
      interval_cases y
      rw [get2_replicate_zero, entry_y_zero]
    · intro y x _
      rw [get2_replicate_zero]
  have h := buildMatrix_aux dest.length 0 _ (by omega) hInit
  simpa [buildMatrix] using h

theorem get2_buildMatrix [DecidableEq α] {source dest : List α} {y x : Nat}
    (hy : y ≤ dest.length) (hx : x ≤ source.length) :
    get2 (buildMatrix source dest) y x = entry source dest y x :=
  (buildMatrix_inv source dest).2.1 y x hy hx

theorem buildMatrix_shape [DecidableEq α] (source dest : List α) :
    (buildMatrix source dest).length = dest.length + 1 ∧
      ∀ row ∈ buildMatrix source dest, row.length = source.length + 1 :=
  (buildMatrix_inv source dest).1

/-! Monotonicity facts about `entry`. -/

lemma take_sublist_take {l : List α} {x x' : Nat} (h : x ≤ x') :
    (l.take x).Sublist (l.take x') := by
  have heq : (l.take x').take x = l.take x := by
    rw [List.take_take, Nat.min_eq_left h]
  rw [← heq]
  exact List.take_sublist _ _

lemma entry_mono_x [DecidableEq α] (source dest : List α) {x x' : Nat} (y : Nat)
    (h : x ≤ x') : entry source dest y x ≤ entry source dest y x' :=
  lcsLen_mono_left _ ((take_sublist_take h).reverse)

lemma lcsLen_mono_right [DecidableEq α] {B B' : List α} (A : List α)
    (h : B.Sublist B') : lcsLen A B ≤ lcsLen A B' := by
  rw [lcsLen_comm A B, lcsLen_comm A B']
  exact lcsLen_mono_left A h

lemma entry_mono_y [DecidableEq α] (source dest : List α) {y y' : Nat} (x : Nat)
    (h : y ≤ y') : entry source dest y x ≤ entry source dest y' x :=
  lcsLen_mono_right _ ((take_sublist_take h).reverse)

lemma entry_succ_x_le [DecidableEq α] {source : List α} (dest : List α)
    {x : Nat} (y : Nat) (hx : x < source.length) :
    entry source dest y (x + 1) ≤ entry source dest y x + 1 := by
  unfold entry
  rw [reverse_take_succ (List.getElem?_eq_getElem hx)]
  exact lcsLen_cons_left_le _ _ _

lemma entry_succ_y_le [DecidableEq α] (source : List α) {dest : List α}
    {y : Nat} (x : Nat) (hy : y < dest.length) :
    entry source dest (y + 1) x ≤ entry source dest y x + 1 := by
  unfold entry
  rw [reverse_take_succ (List.getElem?_eq_getElem hy)]
  exact lcsLen_cons_right_le _ _ _

lemma entry_le_min [DecidableEq α] (source dest : List α) (y x : Nat) :
    entry source dest y x ≤ min x y := by
  have h1 : entry source dest y x ≤ x := by
    have := lcsLen_le_length_left ((source.take x).reverse) ((dest.take y).reverse)
    have h2 : ((source.take x).reverse).length ≤ x := by
      simp [List.length_take]
    exact le_trans this h2
  have h3 : entry source dest y x ≤ y := by
    have := lcsLen_le_length_right ((source.take x).reverse) ((dest.take y).reverse)
    have h4 : ((dest.take y).reverse).length ≤ y := by
      simp [List.length_take]
    exact le_trans this h4
  omega

/-! Analysis of the backtracking loop. -/

lemma take_succ_of_some {l : List α} {n : Nat} {a : α} (h : l[n]? = some a) :
    l.take (n + 1) = l.take n ++ [a] := by
  rw [List.take_succ, h]
  rfl

lemma diffSource_append (l₁ l₂ : List (Diff α)) :
    diffSource (l₁ ++ l₂) = diffSource l₁ ++ diffSource l₂ := by
  induction l₁ with
  | nil => rfl
  | cons op rest ih => cases op <;> simp [diffSource, ih]

lemma diffDest_append (l₁ l₂ : List (Diff α)) :
    diffDest (l₁ ++ l₂) = diffDest l₁ ++ diffDest l₂ := by
  induction l₁ with
  | nil => rfl
  | cons op rest ih => cases op <;> simp [diffDest, ih]

lemma matRead_eq_get2 {mat : List (List Nat)} {y x v : Nat}
    (h : matRead mat y x = some v) : get2 mat y x = v := by
  unfold matRead at h
  unfold get2
  cases hrow : mat[y]? with
  | none => rw [hrow] at h; simp at h
  | some row =>
    rw [hrow] at h
    have h2 : row[x]? = some v := h
    show (row[x]?).getD 0 = v
    rw [h2]
    rfl

/-- Inversion of a successful `stepInsDel`. -/
lemma stepInsDel_some [DecidableEq α] {source dest : List α}
    {matrix : List (List Nat)} {ordering : Ordering} {x y x' y' : Nat}
    {op : Diff α}
    (h : stepInsDel source dest matrix ordering x y = some (op, x', y')) :
    (∃ b, x = 0 ∧ dest[y - 1]? = some b ∧ op = Diff.Insert b ∧
      x' = x ∧ y' = y - 1) ∨
    (∃ b up left, 0 < x ∧ 0 < y ∧ dest[y - 1]? = some b ∧
      op = Diff.Insert b ∧ x' = x ∧ y' = y - 1 ∧
      matRead matrix (y - 1) x = some up ∧ matRead matrix y (x - 1) = some left ∧
      (up > left ∨ (ordering = Ordering.DeleteFirst ∧ up = left))) ∨
    (∃ a up left, 0 < x ∧ 0 < y ∧ source[x - 1]? = some a ∧
      op = Diff.Delete a ∧ x' = x - 1 ∧ y' = y ∧
      matRead matrix (y - 1) x = some up ∧ matRead matrix y (x - 1) = some left ∧
      ¬(up > left ∨ (ordering = Ordering.DeleteFirst ∧ up = left))) := by
  unfold stepInsDel at h
  split at h
  · rename_i hx
    split at h
    · rename_i b hb
      injection h with h
      injection h with h1 h2
      injection h2 with h2 h3
      subst h1; subst h2; subst h3
      exact Or.inl ⟨b, hx, hb, rfl, rfl, rfl⟩
    · exact absurd h (by simp)
  · split at h
    · exact absurd h (by simp)
    · rename_i hx hy
      split at h
      · rename_i up left hup hleft
        split at h
        · rename_i hcond
          split at h
          · rename_i b hb
            injection h with h
            injection h with h1 h2
            injection h2 with h2 h3
            subst h1; subst h2; subst h3
            exact Or.inr (Or.inl ⟨b, up, left, by omega, by omega, hb,
              rfl, rfl, rfl, hup, hleft, hcond⟩)
          · exact absurd h (by simp)
        · rename_i hcond
          split at h
          · rename_i a ha
            injection h with h
            injection h with h1 h2
            injection h2 with h2 h3
            subst h1; subst h2; subst h3
            exact Or.inr (Or.inr ⟨a, up, left, by omega, by omega, ha,
              rfl, rfl, rfl, hup, hleft, hcond⟩)
          · exact absurd h (by simp)
      · exact absurd h (by simp)

/-- Full inversion of one successful iteration of the backtracking loop. -/
lemma diffStep_some [DecidableEq α] {source dest : List α}
    {matrix : List (List Nat)} {ordering : Ordering} {x y x' y' : Nat}
    {op : Diff α} (hloop : 0 < y ∨ 0 < x)
    (h : diffStep source dest matrix ordering x y = some (op, x', y')) :
    (∃ a, 0 < x ∧ 0 < y ∧ x' = x - 1 ∧ y' = y - 1 ∧ op = Diff.Common a ∧
      source[x - 1]? = some a ∧ dest[y - 1]? = some a) ∨
    (∃ b, 0 < y ∧ x' = x ∧ y' = y - 1 ∧ op = Diff.Insert b ∧
      dest[y - 1]? = some b ∧
      (x = 0 ∨ 0 < x ∧ InsTaken source dest matrix ordering x y)) ∨
    (∃ a, 0 < x ∧ 0 < y ∧ x' = x - 1 ∧ y' = y ∧ op = Diff.Delete a ∧
      source[x - 1]? = some a ∧ DelTaken source dest matrix ordering x y) := by
  unfold diffStep at h
  split at h
  · rename_i hxy
    split at h
    · rename_i a b ha hb
      split at h
      · rename_i hab
        injection h with h
        injection h with h1 h2
        injection h2 with h2 h3
        subst h1; subst h2; subst h3
        exact Or.inl ⟨a, hxy.1, hxy.2, rfl, rfl, rfl, ha, by rw [hb, hab]⟩
      · rename_i hab
        rcases stepInsDel_some h with ⟨b2, hx0, _⟩ |
          ⟨b2, up, left, hx0, hy0, hb2, hop, hx', hy', hup, hleft, hcond⟩ |
          ⟨a2, up, left, hx0, hy0, ha2, hop, hx', hy', hup, hleft, hcond⟩
        · exact absurd hx0 (by omega)
        · exact Or.inr (Or.inl ⟨b2, hy0, hx', hy', hop, hb2,
            Or.inr ⟨hx0, a, b, up, left, ha, hb, hab, hup, hleft, hcond⟩⟩)
        · exact Or.inr (Or.inr ⟨a2, hx0, hy0, hx', hy', hop, ha2,
            a, b, up, left, ha, hb, hab, hup, hleft, hcond⟩)
    · exact absurd h (by simp)
  · rename_i hxy
    rcases stepInsDel_some h with ⟨b, hx0, hb, hop, hx', hy'⟩ |
      ⟨b, up, left, hx0, hy0, _⟩ | ⟨a, up, left, hx0, hy0, _⟩
    · have hy : 0 < y := by
        rcases hloop with h1 | h1
        · exact h1
        · omega
      exact Or.inr (Or.inl ⟨b, hy, hx', hy', hop, hb, Or.inl hx0⟩)
    · exact absurd (And.intro hx0 hy0) hxy
    · exact absurd (And.intro hx0 hy0) hxy

/-- Walk invariant: a successful walk from `(x, y)` emits, after the final
reversal, the pushed operations in forward order; their `Common`/`Delete`
elements spell the prefix `source[0..x)` and their `Common`/`Insert`
elements spell the prefix `dest[0..y)`. -/
lemma backtrackGo_reconstruct [DecidableEq α] {source dest : List α}
    {matrix : List (List Nat)} {ordering : Ordering} :
    ∀ (fuel x y : Nat) (track res : List (Diff α)),
      backtrackGo source dest matrix ordering fuel x y track = some res →
      ∃ rest, res = rest ++ track.reverse ∧
        diffSource rest = source.take x ∧ diffDest rest = dest.take y := by
  intro fuel
  induction fuel with
  | zero =>
    intro x y track res h
    unfold backtrackGo at h
    split at h
    · exact absurd h (by simp)
    · rename_i hloop
      injection h with h
      subst h
      have hx : x = 0 := by omega
      have hy : y = 0 := by omega
      subst hx; subst hy
      exact ⟨[], by simp, by simp [diffSource], by simp [diffDest]⟩
  | succ fuel ih =>
    intro x y track res h
    unfold backtrackGo at h
    split at h
    · rename_i hloop
      split at h
      · exact absurd h (by simp)
      · rename_i op x' y' hstep
        obtain ⟨rest, hres, hsrc, hdst⟩ := ih x' y' (track ++ [op]) res h
        rcases diffStep_some hloop hstep with
          ⟨a, hx, hy, rfl, rfl, rfl, ha, hb⟩ |
          ⟨b, hy, rfl, rfl, rfl, hb, _⟩ |
          ⟨a, hx, hy, rfl, rfl, rfl, ha, _⟩
        · refine ⟨rest ++ [Diff.Common a], ?_, ?_, ?_⟩
          · rw [hres]
            simp
          · rw [diffSource_append, hsrc]
            have ht : source.take (x - 1 + 1) = source.take (x - 1) ++ [a] :=
              take_succ_of_some ha
            rw [show x - 1 + 1 = x by omega] at ht
            rw [ht]
            simp [diffSource]
          · rw [diffDest_append, hdst]
            have ht : dest.take (y - 1 + 1) = dest.take (y - 1) ++ [a] :=
              take_succ_of_some hb
            rw [show y - 1 + 1 = y by omega] at ht
            rw [ht]
            simp [diffDest]
        · refine ⟨rest ++ [Diff.Insert b], ?_, ?_, ?_⟩
          · rw [hres]
            simp
          · rw [diffSource_append, hsrc]
            simp [diffSource]
          · rw [diffDest_append, hdst]
            have ht : dest.take (y - 1 + 1) = dest.take (y - 1) ++ [b] :=
              take_succ_of_some hb
            rw [show y - 1 + 1 = y by omega] at ht
            rw [ht]
            simp [diffDest]
        · refine ⟨rest ++ [Diff.Delete a], ?_, ?_, ?_⟩
          · rw [hres]
            simp
          · rw [diffSource_append, hsrc]
            have ht : source.take (x - 1 + 1) = source.take (x - 1) ++ [a] :=
              take_succ_of_some ha
            rw [show x - 1 + 1 = x by omega] at ht
            rw [ht]
            simp [diffSource]
          · rw [diffDest_append, hdst]
            simp [diffDest]
    · rename_i hloop
      injection h with h
      subst h
      have hx : x = 0 := by omega
      have hy : y = 0 := by omega
      subst hx; subst hy
      exact ⟨[], by simp, by simp [diffSource], by simp [diffDest]⟩

/-- Walk invariant for the operation count: a successful walk from `(x, y)`
emits exactly `x + y - entry dest y x` further operations (stated
additively). -/
lemma backtrackGo_count [DecidableEq α] {source dest : List α}
    {ordering : Ordering} :
    ∀ (fuel x y : Nat) (track res : List (Diff α)),
      x ≤ source.length → y ≤ dest.length →
      backtrackGo source dest (buildMatrix source dest) ordering
        fuel x y track = some res →
      res.length + entry source dest y x = track.length + x + y := by
  intro fuel
  induction fuel with
  | zero =>
    intro x y track res hx hy h
    unfold backtrackGo at h
    split at h
    · exact absurd h (by simp)
    · rename_i hloop
      injection h with h
      subst h
      have hx0 : x = 0 := by omega
      have hy0 : y = 0 := by omega
      subst hx0; subst hy0
      rw [entry_y_zero]
      simp
  | succ fuel ih =>
    intro x y track res hxm hyn h
    unfold backtrackGo at h
    split at h
    · rename_i hloop
      split at h
      · exact absurd h (by simp)
      · rename_i op x' y' hstep
        rcases diffStep_some hloop hstep with
          ⟨a, hx, hy, rfl, rfl, rfl, ha, hb⟩ |
          ⟨b, hy, hx1, rfl, rfl, hb, hcase⟩ |
          ⟨a, hx, hy, rfl, hy1, rfl, ha, hdel⟩
        · -- Common step: the cell value is the diagonal value plus one
          have hih := ih (x - 1) (y - 1) (track ++ [Diff.Common a]) res
            (by omega) (by omega) h
          have hrec := entry_succ_succ ha hb
          rw [if_pos rfl, show x - 1 + 1 = x by omega,
            show y - 1 + 1 = y by omega] at hrec
          simp only [List.length_append, List.length_cons, List.length_nil] at hih
          omega
        · rw [hx1] at h
          rcases hcase with hx0 | ⟨hx, a, b2, up, left, ha, hb2, hab, hup, hleft, hcond⟩
          · -- Insert forced by `x == 0`: column zero stays zero
            subst hx0
            have hih := ih 0 (y - 1) (track ++ [Diff.Insert b]) res
              (by omega) (by omega) h
            rw [entry_x_zero] at hih
            rw [entry_x_zero]
            simp only [List.length_append, List.length_cons, List.length_nil] at hih
            omega
          · -- Insert after comparing cells: the cell value equals the value above
            have hih := ih x (y - 1) (track ++ [Diff.Insert b]) res
              (by omega) (by omega) h
            have hup2 : entry source dest (y - 1) x = up := by
              rw [← matRead_eq_get2 hup, get2_buildMatrix (by omega) (by omega)]
            have hleft2 : entry source dest y (x - 1) = left := by
              rw [← matRead_eq_get2 hleft, get2_buildMatrix (by omega) (by omega)]
            have hrec := entry_succ_succ ha hb2
            rw [if_neg hab, show x - 1 + 1 = x by omega,
              show y - 1 + 1 = y by omega] at hrec
            have hmax : max (entry source dest y (x - 1))
                (entry source dest (y - 1) x) = entry source dest (y - 1) x := by
              rw [Nat.max_eq_right]
              omega
            rw [hmax] at hrec
            simp only [List.length_append, List.length_cons, List.length_nil] at hih
            omega
        · -- Delete after comparing cells: the cell value equals the value left
          rw [hy1] at h
          obtain ⟨a2, b2, up, left, ha2, hb2, hab, hup, hleft, hcond⟩ := hdel
          have hih := ih (x - 1) y (track ++ [Diff.Delete a]) res
            (by omega) (by omega) h
          have hup2 : entry source dest (y - 1) x = up := by
            rw [← matRead_eq_get2 hup, get2_buildMatrix (by omega) (by omega)]
          have hleft2 : entry source dest y (x - 1) = left := by
            rw [← matRead_eq_get2 hleft, get2_buildMatrix (by omega) (by omega)]
          have hrec := entry_succ_succ ha2 hb2
          rw [if_neg hab, show x - 1 + 1 = x by omega,
            show y - 1 + 1 = y by omega] at hrec
          have hnlt : ¬up > left := fun hc => hcond (Or.inl hc)
          have hmax : max (entry source dest y (x - 1))
              (entry source dest (y - 1) x) = entry source dest y (x - 1) := by
            rw [Nat.max_eq_left]
            omega
          rw [hmax] at hrec
          simp only [List.length_append, List.length_cons, List.length_nil] at hih
          omega
    · rename_i hloop
      injection h with h
      subst h
      have hx0 : x = 0 := by omega
      have hy0 : y = 0 := by omega
      subst hx0; subst hy0
      rw [entry_y_zero]
      simp

/-- On the diagonal of identical sequences, each iteration matches the two
equal elements and emits a `Common` operation. -/
lemma diffStep_diag [DecidableEq α] (A : List α) (matrix : List (List Nat))
    (ordering : Ordering) {x : Nat} (hx : x < A.length) :
    diffStep A A matrix ordering (x + 1) (x + 1) =
      some (Diff.Common (A.get ⟨x, hx⟩), x, x) := by
  unfold diffStep
  rw [if_pos ⟨Nat.succ_pos x, Nat.succ_pos x⟩]
  simp only [Nat.add_sub_cancel, List.getElem?_eq_getElem hx]
  simp

lemma backtrackGo_diag [DecidableEq α] (A : List α) (matrix : List (List Nat))
    (ordering : Ordering) :
    ∀ (x fuel : Nat) (track : List (Diff α)), x ≤ A.length → x ≤ fuel →
      backtrackGo A A matrix ordering fuel x x track =
        some ((A.take x).map Diff.Common ++ track.reverse) := by
  intro x
  induction x with
  | zero =>
    intro fuel track _ _
    cases fuel with
    | zero =>
      unfold backtrackGo
      rw [if_neg (by omega)]
      simp
    | succ f =>
      unfold backtrackGo
      rw [if_neg (by omega)]
      simp
  | succ x ih =>
    intro fuel track hxA hxf
    obtain ⟨f, rfl⟩ : ∃ f, fuel = f + 1 := ⟨fuel - 1, by omega⟩
    unfold backtrackGo
    rw [if_pos (Or.inl (Nat.succ_pos x)),
      diffStep_diag A matrix ordering (show x < A.length by omega)]
    show backtrackGo A A matrix ordering f x x
        (track ++ [Diff.Common (A.get ⟨x, by omega⟩)]) = _
    rw [ih f (track ++ [Diff.Common (A.get ⟨x, by omega⟩)]) (by omega) (by omega)]
    have ht : A.take (x + 1) = A.take x ++ [A.get ⟨x, by omega⟩] :=
      take_succ_of_some (List.getElem?_eq_getElem (by omega))
    rw [ht, List.map_append]
    simp only [List.reverse_append, List.map_cons, List.map_nil,
      List.reverse_cons, List.reverse_nil, List.nil_append, List.append_assoc,
      List.cons_append, List.singleton_append]

/-- Projections of `Lcs::new`. -/
lemma new_matrix [DecidableEq α] (A B : List α) :
    (Lcs.new A B).matrix = buildMatrix A B := rfl

lemma new_source [DecidableEq α] (A B : List α) : (Lcs.new A B).source = A := rfl

lemma new_dest [DecidableEq α] (A B : List α) : (Lcs.new A B).dest = B := rfl

/-- The length query, computed on the mathematical reference function. -/
lemma length_new [DecidableEq α] (A B : List α) :
    (Lcs.new A B).length = lcsLen A.reverse B.reverse := by
  show get2 (buildMatrix A B) B.length A.length = _
  rw [get2_buildMatrix le_rfl le_rfl]
  unfold entry
  rw [List.take_length, List.take_length]

lemma get2_zero_of_ge {mat : List (List Nat)} {y x : Nat}
    (h : (mat[y]?.getD []).length ≤ x) : get2 mat y x = 0 := by
  unfold get2
  rw [List.getElem?_eq_none h]
  rfl

lemma buildMatrix_row_len [DecidableEq α] {A B : List α} {y : Nat}
    (hy : y ≤ B.length) :
    (((buildMatrix A B)[y]?).getD []).length = A.length + 1 := by
  obtain ⟨hlen, hrows⟩ := buildMatrix_shape A B
  have hylt : y < (buildMatrix A B).length := by omega
  rw [getD_row hylt]
  exact hrows _ (List.getElem_mem hylt)

/-! Claim theorems. -/

/-- C1: the claim says `backtrack` never fails, but the walk panics whenever
it reaches a state with `y == 0` and `x > 0`, because the loop condition
evaluates `self.matrix[y-1][x]` and `y - 1` underflows.  With
`source = [1, 0]` and `dest = [0]` the walk matches the trailing `0`
(reaching `x = 1, y = 0`) and then panics, for both orderings. -/
theorem backtrack_panics_on_leftover_source :
    (Lcs.new [1, 0] [0]).backtrack Ordering.DeleteFirst = none ∧
      (Lcs.new [1, 0] [0]).backtrack Ordering.InsertFirst = none := by
  decide

/-- C2: with `source` nonempty and `dest` empty the claim demands a pure
`Delete` script, but the very first iteration starts at `x > 0, y = 0` and
evaluates `self.matrix[y-1][x]`, an underflow panic, for both orderings. -/
theorem backtrack_panics_on_empty_dest :
    (Lcs.new [5] ([] : List Nat)).backtrack Ordering.DeleteFirst = none ∧
      (Lcs.new [5] ([] : List Nat)).backtrack Ordering.InsertFirst = none := by
  decide

/-- C2 auxiliary: the other half of the edge case does hold: with `source`
empty, `backtrack` succeeds and yields only `Insert` operations covering
`dest` in order. -/
theorem backtrack_empty_source [DecidableEq α] (B : List α)
    (ordering : Ordering) :
    (Lcs.new [] B).backtrack ordering = some (B.map Diff.Insert) := by
  show backtrackGo [] B (buildMatrix [] B) ordering
    (List.length [] + B.length) 0 B.length [] = _
  have hgo : ∀ (y fuel : Nat) (track : List (Diff α)), y ≤ B.length →
      y ≤ fuel →
      backtrackGo [] B (buildMatrix [] B) ordering fuel 0 y track =
        some ((B.take y).map Diff.Insert ++ track.reverse) := by
    intro y
    induction y with
    | zero =>
      intro fuel track _ _
      cases fuel with
      | zero =>
        unfold backtrackGo
        rw [if_neg (by omega)]
        simp
      | succ f =>
        unfold backtrackGo
        rw [if_neg (by omega)]
        simp
    | succ y ih =>
      intro fuel track hyB hyf
      obtain ⟨f, rfl⟩ : ∃ f, fuel = f + 1 := ⟨fuel - 1, by omega⟩
      unfold backtrackGo
      rw [if_pos (Or.inl (Nat.succ_pos y))]
      have hstep : diffStep [] B (buildMatrix [] B) ordering 0 (y + 1) =
          some (Diff.Insert (B.get ⟨y, by omega⟩), 0, y) := by
        unfold diffStep stepInsDel
        rw [if_neg (by simp), if_pos rfl]
        simp only [Nat.add_sub_cancel, List.getElem?_eq_getElem
          (show y < B.length by omega)]
        rfl
      rw [hstep]
      show backtrackGo [] B (buildMatrix [] B) ordering f 0 y
          (track ++ [Diff.Insert (B.get ⟨y, by omega⟩)]) = _
      rw [ih f (track ++ [Diff.Insert (B.get ⟨y, by omega⟩)]) (by omega) (by omega)]
      have ht : B.take (y + 1) = B.take y ++ [B.get ⟨y, by omega⟩] :=
        take_succ_of_some (List.getElem?_eq_getElem (by omega))
      rw [ht, List.map_append]
      simp only [List.reverse_append, List.map_cons, List.map_nil,
        List.reverse_cons, List.reverse_nil, List.nil_append, List.append_assoc,
        List.cons_append, List.singleton_append]
  have hfin := hgo B.length (List.length ([] : List α) + B.length) []
    le_rfl (by simp)
  simpa using hfin

/-- C3: the three literal diff scenarios from the spec, computed on the
model. -/
theorem backtrack_literal_scenarios :
    (Lcs.new ['a', 'b', 'c'] ['a', 'c', 'b']).backtrack Ordering.DeleteFirst =
      some [Diff.Common 'a', Diff.Delete 'b', Diff.Common 'c',
        Diff.Insert 'b'] ∧
    (Lcs.new ['a', 'b', 'c'] ['a', 'c', 'b']).backtrack Ordering.InsertFirst =
      some [Diff.Common 'a', Diff.Insert 'c', Diff.Common 'b',
        Diff.Delete 'c'] ∧
    (Lcs.new ['H', 'i', '!'] ['H', 'e', 'y', '!']).backtrack
        Ordering.DeleteFirst =
      some [Diff.Common 'H', Diff.Delete 'i', Diff.Insert 'e', Diff.Insert 'y',
        Diff.Common '!'] := by
  decide

/-- C4 counterexample: as stated ("for every pair of sequences ... the
operations of `backtrack` reconstruct the inputs") the claim fails, because
on `source = [0]`, `dest = []` the call panics and produces no script at
all. -/
theorem backtrack_roundtrip_cex :
    ¬ ∃ res : List (Diff Nat),
      (Lcs.new [0] ([] : List Nat)).backtrack Ordering.DeleteFirst =
          some res ∧
        diffSource res = [0] ∧ diffDest res = [] := by
  rintro ⟨res, hres, -, -⟩
  have hnone : (Lcs.new [0] ([] : List Nat)).backtrack Ordering.DeleteFirst =
      none := by decide
  rw [hnone] at hres
  exact absurd hres (by simp)

/-- C4 (amended): whenever `backtrack` returns a script (it panics on some
inputs), concatenating the `Common`/`Delete` elements in emitted order
reconstructs `source` and concatenating the `Common`/`Insert` elements
reconstructs `dest`, for both orderings. -/
theorem backtrack_roundtrip [DecidableEq α] (A B : List α)
    (ordering : Ordering) (res : List (Diff α))
    (h : (Lcs.new A B).backtrack ordering = some res) :
    diffSource res = A ∧ diffDest res = B := by
  have h' : backtrackGo A B (buildMatrix A B) ordering (A.length + B.length)
      A.length B.length [] = some res := h
  obtain ⟨rest, hres, hsrc, hdst⟩ :=
    backtrackGo_reconstruct (A.length + B.length) A.length B.length [] res h'
  rw [List.reverse_nil, List.append_nil] at hres
  subst hres
  rw [List.take_length] at hsrc hdst
  exact ⟨hsrc, hdst⟩

theorem backtrack_roundtrip_witness :
    diffSource [Diff.Common 7] = [7] ∧ diffDest [Diff.Common 7] = [(7 : Nat)] :=
  backtrack_roundtrip [7] [7] Ordering.InsertFirst [Diff.Common 7] (by decide)

/-- C5: the table built by `Lcs::new` has `(n+1)` rows of `(m+1)` columns,
row 0 and column 0 are all zero, every inner cell satisfies the LCS
recurrence, and every cell in range is the LCS length of the corresponding
prefixes. -/
theorem matrix_spec [DecidableEq α] (A B : List α) :
    ((Lcs.new A B).matrix.length = B.length + 1 ∧
      ∀ row ∈ (Lcs.new A B).matrix, row.length = A.length + 1) ∧
    (∀ x : Nat, get2 (Lcs.new A B).matrix 0 x = 0) ∧
    (∀ y : Nat, get2 (Lcs.new A B).matrix y 0 = 0) ∧
    (∀ (x y : Nat) (a b : α), 1 ≤ x → x ≤ A.length → 1 ≤ y → y ≤ B.length →
      A[x - 1]? = some a → B[y - 1]? = some b →
      get2 (Lcs.new A B).matrix y x =
        if a = b then get2 (Lcs.new A B).matrix (y - 1) (x - 1) + 1
        else max (get2 (Lcs.new A B).matrix y (x - 1))
          (get2 (Lcs.new A B).matrix (y - 1) x)) ∧
    (∀ x y : Nat, x ≤ A.length → y ≤ B.length →
      IsMaxLcsLen (A.take x) (B.take y) (get2 (Lcs.new A B).matrix y x)) := by
  rw [new_matrix]
  refine ⟨buildMatrix_shape A B, ?_, ?_, ?_, ?_⟩
  · intro x
    by_cases hx : x ≤ A.length
    · rw [get2_buildMatrix (by omega) hx, entry_y_zero]
    · refine get2_zero_of_ge ?_
      rw [buildMatrix_row_len (by omega)]
      omega
  · intro y
    by_cases hy : y ≤ B.length
    · rw [get2_buildMatrix hy (by omega), entry_x_zero]
    · refine get2_zero_of_ge ?_
      have hnone : (buildMatrix A B)[y]? = none := by
        refine List.getElem?_eq_none ?_
        rw [(buildMatrix_shape A B).1]
        omega
      rw [hnone]
      simp
  · intro x y a b hx1 hxm hy1 hyn ha hb
    rw [get2_buildMatrix hyn hxm, get2_buildMatrix (by omega) (by omega),
      get2_buildMatrix hyn (by omega), get2_buildMatrix (by omega) hxm]
    have hrec := entry_succ_succ ha hb
    rw [show x - 1 + 1 = x by omega, show y - 1 + 1 = y by omega] at hrec
    exact hrec
  · intro x y hx hy
    rw [get2_buildMatrix hy hx]
    have := isMaxLcsLen_reverse (lcsLen_isMax (A.take x).reverse
      (B.take y).reverse)
    simpa [entry] using this

theorem matrix_spec_witness :
    get2 (Lcs.new [0, 1] [1, 0]).matrix 1 2 =
      if (1 : Nat) = 1 then get2 (Lcs.new [0, 1] [1, 0]).matrix 0 1 + 1
      else max (get2 (Lcs.new [0, 1] [1, 0]).matrix 1 1)
        (get2 (Lcs.new [0, 1] [1, 0]).matrix 0 2) :=
  (matrix_spec [0, 1] [1, 0]).2.2.2.1 2 1 1 1 (by decide) (by decide)
    (by decide) (by decide) (by decide) (by decide)

/-- C6: `length()` reads `table[n][m]`, which is the length of a longest
common subsequence of the two sequences; it is bounded by both lengths and
vanishes on disjoint or empty inputs. -/
theorem length_spec [DecidableEq α] (A B : List α) :
    (Lcs.new A B).length = get2 (Lcs.new A B).matrix B.length A.length ∧
    IsMaxLcsLen A B (Lcs.new A B).length ∧
    (Lcs.new A B).length ≤ min A.length B.length ∧
    ((∀ a ∈ A, a ∉ B) → (Lcs.new A B).length = 0) ∧
    (A = [] ∨ B = [] → (Lcs.new A B).length = 0) := by
  have hmax : IsMaxLcsLen A B ((Lcs.new A B).length) := by
    rw [length_new]
    have := isMaxLcsLen_reverse (lcsLen_isMax A.reverse B.reverse)
    simpa using this
  have hmin : (Lcs.new A B).length ≤ min A.length B.length := by
    rw [length_new]
    have h1 := lcsLen_le_length_left A.reverse B.reverse
    have h2 := lcsLen_le_length_right A.reverse B.reverse
    simp only [List.length_reverse] at h1 h2
    omega
  refine ⟨rfl, hmax, hmin, ?_, ?_⟩
  · intro hdisj
    obtain ⟨⟨C, hCA, hCB, hC⟩, -⟩ := hmax
    cases C with
    | nil => simpa using hC.symm
    | cons c cs =>
      exact absurd (hCB.subset (List.mem_cons_self c cs))
        (hdisj c (hCA.subset (List.mem_cons_self c cs)))
  · intro hemp
    rcases hemp with rfl | rfl
    · simp at hmin
      omega
    · simp at hmin
      omega

theorem length_spec_witness :
    (Lcs.new [0, 1] [2, 3]).length = 0 :=
  (length_spec [0, 1] [2, 3]).2.2.2.1 (by decide)

/-- C7 counterexample: as stated the claim fails: on `source = [1]`,
`dest = []` the loop does not terminate normally (it panics), so no script
of any length is returned. -/
theorem backtrack_count_cex :
    ¬ ∃ res : List (Diff Nat),
      (Lcs.new [1] ([] : List Nat)).backtrack Ordering.InsertFirst =
          some res ∧
        res.length = [1].length + ([] : List Nat).length -
          (Lcs.new [1] ([] : List Nat)).length := by
  rintro ⟨res, hres, -⟩
  have hnone : (Lcs.new [1] ([] : List Nat)).backtrack Ordering.InsertFirst =
      none := by decide
  rw [hnone] at hres
  exact absurd hres (by simp)

/-- C7 (amended): whenever `backtrack` returns a script (it panics on some
inputs), the walk has taken exactly `m + n - length()` iterations, one per
emitted operation, so the script holds exactly `m + n - length()`
operations. -/
theorem backtrack_count [DecidableEq α] (A B : List α) (ordering : Ordering)
    (res : List (Diff α)) (h : (Lcs.new A B).backtrack ordering = some res) :
    res.length = A.length + B.length - (Lcs.new A B).length := by
  have h' : backtrackGo A B (buildMatrix A B) ordering (A.length + B.length)
      A.length B.length [] = some res := h
  have hc := backtrackGo_count (A.length + B.length) A.length B.length [] res
    le_rfl le_rfl h'
  have hlen : (Lcs.new A B).length = entry A B B.length A.length := by
    show get2 (buildMatrix A B) B.length A.length = _
    exact get2_buildMatrix le_rfl le_rfl
  simp only [List.length_nil] at hc
  omega

theorem backtrack_count_witness :
    ([Diff.Common 0] : List (Diff Nat)).length =
      [0].length + [0].length - (Lcs.new [0] [0]).length :=
  backtrack_count [0] [0] Ordering.DeleteFirst [Diff.Common 0] (by decide)

/-- C8: the LCS length is symmetric in the two sequences. -/
theorem length_comm [DecidableEq α] (A B : List α) :
    (Lcs.new A B).length = (Lcs.new B A).length := by
  rw [length_new, length_new, lcsLen_comm]

/-- C9: on identical sequences the length is the full length and
`backtrack` emits exactly the elements of `A` as `Common` operations, in
order, with no `Insert` or `Delete`, for either ordering. -/
theorem backtrack_self_common [DecidableEq α] (A : List α)
    (ordering : Ordering) :
    (Lcs.new A A).length = A.length ∧
      (Lcs.new A A).backtrack ordering = some (A.map Diff.Common) := by
  constructor
  · rw [length_new, lcsLen_self, List.length_reverse]
  · show backtrackGo A A (buildMatrix A A) ordering (A.length + A.length)
      A.length A.length [] = _
    rw [backtrackGo_diag A (buildMatrix A A) ordering A.length
      (A.length + A.length) [] le_rfl (by omega), List.take_length]
    simp

/-- C10: the table is monotone along rows and columns, adjacent cells
differ by at most one, and each cell is bounded by `min x y`. -/
theorem matrix_monotone [DecidableEq α] (A B : List α) :
    (∀ x x' y : Nat, x ≤ x' → x' ≤ A.length → y ≤ B.length →
      get2 (Lcs.new A B).matrix y x ≤ get2 (Lcs.new A B).matrix y x') ∧
    (∀ y y' x : Nat, y ≤ y' → y' ≤ B.length → x ≤ A.length →
      get2 (Lcs.new A B).matrix y x ≤ get2 (Lcs.new A B).matrix y' x) ∧
    (∀ x y : Nat, x + 1 ≤ A.length → y ≤ B.length →
      get2 (Lcs.new A B).matrix y (x + 1) ≤
        get2 (Lcs.new A B).matrix y x + 1) ∧
    (∀ x y : Nat, x ≤ A.length → y + 1 ≤ B.length →
      get2 (Lcs.new A B).matrix (y + 1) x ≤
        get2 (Lcs.new A B).matrix y x + 1) ∧
    (∀ x y : Nat, x ≤ A.length → y ≤ B.length →
      get2 (Lcs.new A B).matrix y x ≤ min x y) := by
  rw [new_matrix]
  refine ⟨?_, ?_, ?_, ?_, ?_⟩
  · intro x x' y hxx hx'm hyn
    rw [get2_buildMatrix hyn (by omega), get2_buildMatrix hyn hx'm]
    exact entry_mono_x A B y hxx
  · intro y y' x hyy hy'n hxm
    rw [get2_buildMatrix (by omega) hxm, get2_buildMatrix hy'n hxm]
    exact entry_mono_y A B x hyy
  · intro x y hx hy
    rw [get2_buildMatrix hy (by omega), get2_buildMatrix hy (by omega)]
    exact entry_succ_x_le B y (by omega)
  · intro x y hx hy
    rw [get2_buildMatrix (by omega) hx, get2_buildMatrix (by omega) hx]
    exact entry_succ_y_le A x (by omega)
  · intro x y hx hy
    rw [get2_buildMatrix hy hx]
    exact entry_le_min A B y x

theorem matrix_monotone_witness :
    get2 (Lcs.new [0, 1] [0]).matrix 1 2 ≤ min 2 1 :=
  (matrix_monotone [0, 1] [0]).2.2.2.2 2 1 (by decide) (by decide)

end lcs
